import Mathlib

/-!
Shallow embedding of the filtering stages of `troi/filters.py`
(mayhem/troi-recommendation-playground).

Recordings and artists are modelled with explicit optional fields, matching
the duck-typed entities the Python code probes (`r.artist`, `r.artist.name`,
`r.year`, ...).  Python exceptions are modelled with `Except PyErr`:
attribute access on `None` raises `AttributeError`, and the filters'
`raise PipelineError` statements produce `PyErr.pipelineError`.  Python
truthiness on an optional integer (`not r.year`,
`not r.artist.artist_credit_id`) is falsy both for `None` and for `0`,
and is embedded as such.
-/

namespace Troi

/-- An artist as consumed by the filters: an optional artist-credit id and an
optional name. -/
structure Artist where
  artist_credit_id : Option Nat
  name : Option String

/-- A recording: identity (`mbid`, required), optional name, optional year,
optional ranking and an optional artist. -/
structure Recording where
  mbid : Nat
  name : Option String
  year : Option Int
  ranking : Option Int
  artist : Option Artist

deriving instance DecidableEq for Artist
deriving instance DecidableEq for Recording

/-- Python exceptions that the embedded code can raise.  `attributeError`
models attribute access on `None` (e.g. `rec.artist.artist_credit_id` when
`rec.artist` is `None`); `pipelineError` models `raise PipelineError(...)`. -/
inductive PyErr where
  | attributeError
  | pipelineError

deriving instance DecidableEq for PyErr

/-- The artist-credit key of a recording, as the Python expression
`r.artist.artist_credit_id` computes it: `none` when the artist itself is
absent (the expression would raise `AttributeError`), otherwise
`some` of the (optional) credit id. -/
def creditOf (r : Recording) : Option (Option Nat) :=
  r.artist.map (fun a => a.artist_credit_id)

/-! ### ArtistCreditFilterElement.read

The loop building `ac_index` from `self.artist_credit_ids` only performs
dict assignments (`ac_index[ac] = 1`), which never raise `KeyError`, so its
`except KeyError: raise PipelineError` clause is dead code and the index is
simply the set of configured ids.  Each recording is then skipped when
`not r.artist or not r.artist.artist_credit_id` holds — Python truthiness,
under which both a missing credit id and a credit id equal to `0` are falsy
— and otherwise kept according to the `include` flag and membership of its
credit id in the configured ids. -/

def acFilterRead (artist_credit_ids : List Nat) (inc : Bool) :
    List Recording → List Recording
  | [] => []
  | r :: rs =>
    let rest := acFilterRead artist_credit_ids inc rs
    match r.artist with
    | none => rest
    | some a =>
      match a.artist_credit_id with
      | none => rest
      | some cid =>
        if cid = 0 then rest
        else if inc then (if cid ∈ artist_credit_ids then r :: rest else rest)
        else (if cid ∈ artist_credit_ids then rest else r :: rest)

/-- The per-recording keep condition of the inclusion/exclusion filter,
written after the spec's words: a recording with an absent artist, or an
absent-or-zero (falsy) credit id, is skipped; otherwise it passes exactly
when (`include` and the id is configured) or (not `include` and the id is
not configured). -/
def acKeepSpec (artist_credit_ids : List Nat) (inc : Bool) (r : Recording) : Bool :=
  match r.artist with
  | none => false
  | some a =>
    match a.artist_credit_id with
    | none => false
    | some cid =>
      decide (cid ≠ 0 ∧ ((inc = true ∧ cid ∈ artist_credit_ids) ∨
        (inc = false ∧ cid ∉ artist_credit_ids)))

/-! ### DuplicateRecordingFilterElement.read -/

/-- The loop of `DuplicateRecordingFilterElement.read`: `seen` is the set of
already-encountered mbids (modelled as a list, consulted by membership). -/
def dupAux (seen : List Nat) : List Recording → List Recording
  | [] => []
  | r :: rs =>
    if r.mbid ∈ seen then dupAux seen rs
    else r :: dupAux (r.mbid :: seen) rs

def dupFilterRead (recordings : List Recording) : List Recording :=
  dupAux [] recordings

/-! ### ConsecutiveRecordingFilterElement.read -/

/-- The loop of `ConsecutiveRecordingFilterElement.read`: `last_mbid` starts
as `None` and is set to the current recording's mbid after every iteration,
whether or not the recording was kept. -/
def consecAux (last_mbid : Option Nat) : List Recording → List Recording
  | [] => []
  | r :: rs =>
    if some r.mbid = last_mbid then consecAux (some r.mbid) rs
    else r :: consecAux (some r.mbid) rs

def consecFilterRead (recordings : List Recording) : List Recording :=
  consecAux none recordings

/-- The consecutive filter's behaviour as the spec words it: pair every
recording with the mbid of the immediately preceding input element (`none`
for the first) and drop exactly those equal to their predecessor. -/
def consecSpec (l : List Recording) : List Recording :=
  (((none : Option Nat) :: l.map (fun r => some r.mbid)).zip l).filterMap
    (fun p => if some p.2.mbid = p.1 then none else some p.2)

/-! ### EmptyRecordingFilterElement.read -/

/-- One recording's exclusion test, `rec.name is None or (rec.artist and
rec.artist.name is None)`: a present artist object is always truthy. -/
def emptyBad (r : Recording) : Bool :=
  match r.name, r.artist with
  | none, _ => true
  | some _, some a => a.name.isNone
  | some _, none => false

def emptyFilterRead : List Recording → List Recording
  | [] => []
  | r :: rs =>
    if emptyBad r then emptyFilterRead rs
    else r :: emptyFilterRead rs

/-- The keep condition in the spec's words: the name is present and any
present artist also has a present name. -/
def emptyKeepSpec (r : Recording) : Bool :=
  r.name.isSome && r.artist.all (fun a => a.name.isSome)

/-! ### YearRangeFilterElement.read -/

def yearRangeRead (start_year end_year : Int) (inverse : Bool) :
    List Recording → List Recording
  | [] => []
  | r :: rs =>
    let rest := yearRangeRead start_year end_year inverse rs
    match r.year with
    | none => rest
    | some y =>
      if y = 0 then rest
      else if inverse then
        (if y < start_year ∨ end_year < y then r :: rest else rest)
      else
        (if start_year ≤ y ∧ y ≤ end_year then r :: rest else rest)

/-- The year filter's keep condition: a present, nonzero year that is inside
the inclusive range (or outside it when `inverse` is set). -/
def yearKeepSpec (start_year end_year : Int) (inverse : Bool) (r : Recording) : Bool :=
  match r.year with
  | none => false
  | some y =>
    decide (y ≠ 0 ∧ (if inverse then (y < start_year ∨ end_year < y)
      else (start_year ≤ y ∧ y ≤ end_year)))

/-! ### ArtistCreditLimiterElement.read

The grouping loop evaluates `rec.artist.artist_credit_id`: when `rec.artist`
is `None` this raises `AttributeError`, which the surrounding
`except KeyError` clause does **not** catch, so it propagates; when the
artist is present the (possibly `None`) credit id is used directly as a
`defaultdict` key, which never raises, so the `raise PipelineError` branch
is unreachable.  `all_have_rankings` is cleared whenever a recording's
ranking is `None`.  Each group is then either stably sorted by ranking
(descending when `exclude_lower_ranked`, via `sorted(..., key=itemgetter(1),
reverse=...)`, which is a stable sort, embedded as a stable insertion sort)
or shuffled (embedded as a caller-supplied `shuffle` function), and sliced
with `[:count]` (Python slice semantics, including negative `count`).
Finally the input is filtered to the mbids that survived. -/

/-- A group entry: artist-credit key (the optional id the Python dict is
keyed by) together with the `(mbid, ranking)` pairs appended so far. -/
abbrev GroupEntry := Option Nat × List (Nat × Option Int)

/-- Append a value to the group of key `k`, creating the group at the end
when absent — the behaviour of `defaultdict(list)` with insertion-ordered
keys. -/
def insertGroup : List GroupEntry → Option Nat → Nat × Option Int → List GroupEntry
  | [], k, v => [(k, [v])]
  | (k', l) :: rest, k, v =>
    if k' = k then (k', l ++ [v]) :: rest
    else (k', l) :: insertGroup rest k v

/-- The grouping loop of `ArtistCreditLimiterElement.read`.  A recording
with no artist raises `AttributeError` (not caught by `except KeyError`);
otherwise its `(mbid, ranking)` pair is appended under its credit id and the
`all_have_rankings` flag is cleared when the ranking is absent. -/
def buildIndex : List Recording → List GroupEntry → Bool →
    Except PyErr (List GroupEntry × Bool)
  | [], acc, flag => .ok (acc, flag)
  | r :: rs, acc, flag =>
    match r.artist with
    | none => .error .attributeError
    | some a =>
      buildIndex rs (insertGroup acc a.artist_credit_id (r.mbid, r.ranking))
        (flag && r.ranking.isSome)

/-- The sort key `itemgetter(1)`: the ranking of a `(mbid, ranking)` pair.
The `getD 0` default is irrelevant: the sorting branch only runs when every
ranking is present. -/
def rkey (p : Nat × Option Int) : Int :=
  p.2.getD 0

/-- Ordering used by `sorted(..., reverse=True)`: higher rankings first. -/
def rankDesc (a b : Nat × Option Int) : Prop :=
  rkey b ≤ rkey a

/-- Ordering used by `sorted(...)`: lower rankings first. -/
def rankAsc (a b : Nat × Option Int) : Prop :=
  rkey a ≤ rkey b

instance : DecidableRel rankDesc :=
  fun a b => inferInstanceAs (Decidable (rkey b ≤ rkey a))

instance : DecidableRel rankAsc :=
  fun a b => inferInstanceAs (Decidable (rkey a ≤ rkey b))

instance : IsTotal (Nat × Option Int) rankDesc :=
  ⟨fun a b => Int.le_total (rkey b) (rkey a)⟩

instance : IsTotal (Nat × Option Int) rankAsc :=
  ⟨fun a b => Int.le_total (rkey a) (rkey b)⟩

instance : IsTrans (Nat × Option Int) rankDesc :=
  ⟨fun _ _ _ hab hbc => le_trans hbc hab⟩

instance : IsTrans (Nat × Option Int) rankAsc :=
  ⟨fun _ _ _ hab hbc => le_trans hab hbc⟩

/-- Python's stable sort of a group, `sorted(group, key=itemgetter(1),
reverse=exclude_lower_ranked)`, embedded as a stable insertion sort. -/
def sortGroup (exclude_lower_ranked : Bool) (l : List (Nat × Option Int)) :
    List (Nat × Option Int) :=
  if exclude_lower_ranked then List.insertionSort rankDesc l
  else List.insertionSort rankAsc l

/-- Python list slicing `l[:count]` for an arbitrary integer `count`: a
non-negative stop takes a prefix, a negative stop means `len(l) + count`
clamped at zero. -/
def pyTake (l : List (Nat × Option Int)) (count : Int) : List (Nat × Option Int) :=
  if 0 ≤ count then l.take count.toNat
  else l.take (l.length - (-count).toNat)

/-- The per-group ordering-and-truncation loop: sort (when every ranking is
present) or shuffle each group, then slice it to `[:count]`. -/
def processGroups (shuffle : List (Nat × Option Int) → List (Nat × Option Int))
    (count : Int) (exclude_lower_ranked all_have_rankings : Bool)
    (g : List GroupEntry) : List GroupEntry :=
  g.map (fun e =>
    (e.1, pyTake (if all_have_rankings then sortGroup exclude_lower_ranked e.2
      else shuffle e.2) count))

/-- The `pass_recs` list: all mbids surviving truncation, over all groups. -/
def passRecs (g : List GroupEntry) : List Nat :=
  g.flatMap (fun e => e.2.map Prod.fst)

/-- The final loop of `ArtistCreditLimiterElement.read`: keep, in input
order, the recordings whose mbid occurs in `pass_recs`. -/
def limiterPost (shuffle : List (Nat × Option Int) → List (Nat × Option Int))
    (count : Int) (exclude_lower_ranked : Bool) (recordings : List Recording)
    (g : List GroupEntry) (all_have_rankings : Bool) : List Recording :=
  recordings.filter (fun r =>
    decide (r.mbid ∈ passRecs
      (processGroups shuffle count exclude_lower_ranked all_have_rankings g)))

/-- `ArtistCreditLimiterElement.read`.  The `shuffle` parameter stands for
`random.shuffle` on one group; claims about the shuffled branch assume only
that it permutes its input. -/
def limiterRead (shuffle : List (Nat × Option Int) → List (Nat × Option Int))
    (count : Int) (exclude_lower_ranked : Bool)
    (recordings : List Recording) : Except PyErr (List Recording) :=
  match buildIndex recordings [] true with
  | .error e => .error e
  | .ok (g, all_have_rankings) =>
    .ok (limiterPost shuffle count exclude_lower_ranked recordings g all_have_rankings)

/-- Accessor used to state properties of the grouping index: the member list
of the (first) entry with key `k`, or `[]` when the key is absent.  Keys are
unique by construction, so this is the group of `k`. -/
def groupOf : List GroupEntry → Option Nat → List (Nat × Option Int)
  | [], _ => []
  | (k', l) :: rest, k => if k' = k then l else groupOf rest k

/-! ### Concrete recordings used in examples -/

/-- A recording with every artist field populated, used for concrete tests. -/
def mkRec (m : Nat) (cid : Option Nat) (rank : Option Int) : Recording :=
  { mbid := m, name := some "t", year := none, ranking := rank,
    artist := some { artist_credit_id := cid, name := some "a" } }

/-- A recording with a year and a fully populated artist. -/
def mkYearRec (m : Nat) (y : Option Int) : Recording :=
  { mbid := m, name := some "t", year := y, ranking := some 1,
    artist := some { artist_credit_id := some 1, name := some "a" } }

/-- A recording whose artist is present but has no artist-credit id. -/
def recMissingCreditId : Recording :=
  { mbid := 1, name := some "t", year := none, ranking := some 1,
    artist := some { artist_credit_id := none, name := some "a" } }

/-- A recording with no artist at all. -/
def recMissingArtist : Recording :=
  { mbid := 2, name := some "t", year := none, ranking := some 1,
    artist := none }

/-- A recording with an absent name (and a fully populated artist). -/
def recNoName : Recording :=
  { mbid := 10, name := none, year := none, ranking := none,
    artist := some { artist_credit_id := some 1, name := some "a" } }

/-- A recording with a name but whose present artist has no name. -/
def recArtistNoName : Recording :=
  { mbid := 11, name := some "t", year := none, ranking := none,
    artist := some { artist_credit_id := some 1, name := none } }

/-- A recording with a name and no artist at all. -/
def recNamedNoArtist : Recording :=
  { mbid := 12, name := some "t", year := none, ranking := none,
    artist := none }

/-! ## Helper lemmas about the simple filters -/

theorem acFilterRead_eq_filter (ids : List Nat) (inc : Bool) (recs : List Recording) :
    acFilterRead ids inc recs = recs.filter (acKeepSpec ids inc) := by
  induction recs with
  | nil => rfl
  | cons r rs ih =>
    cases h : r.artist with
    | none => simp [acFilterRead, List.filter_cons, acKeepSpec, h, ih]
    | some a =>
      cases h2 : a.artist_credit_id with
      | none => simp [acFilterRead, List.filter_cons, acKeepSpec, h, h2, ih]
      | some cid =>
        by_cases h0 : cid = 0
        · simp [acFilterRead, List.filter_cons, acKeepSpec, h, h2, h0, ih]
        · cases inc <;> by_cases hm : cid ∈ ids <;>
            simp [acFilterRead, List.filter_cons, acKeepSpec, h, h2, h0, hm, ih]

theorem yearRangeRead_eq_filter (s e : Int) (inv : Bool) (recs : List Recording) :
    yearRangeRead s e inv recs = recs.filter (yearKeepSpec s e inv) := by
  induction recs with
  | nil => rfl
  | cons r rs ih =>
    cases h : r.year with
    | none => simp [yearRangeRead, List.filter_cons, yearKeepSpec, h, ih]
    | some y =>
      by_cases h0 : y = 0
      · simp [yearRangeRead, List.filter_cons, yearKeepSpec, h, h0, ih]
      · cases inv with
        | false =>
          by_cases hin : s ≤ y ∧ y ≤ e <;>
            simp [yearRangeRead, List.filter_cons, yearKeepSpec, h, h0, hin, ih]
        | true =>
          by_cases hout : y < s ∨ e < y <;>
            simp [yearRangeRead, List.filter_cons, yearKeepSpec, h, h0, hout, ih]

theorem emptyKeepSpec_eq_not_bad (r : Recording) : emptyKeepSpec r = !emptyBad r := by
  cases hn : r.name with
  | none => simp [emptyKeepSpec, emptyBad, hn]
  | some n =>
    cases ha : r.artist with
    | none => simp [emptyKeepSpec, emptyBad, hn, ha]
    | some a => cases a.name <;> simp_all [emptyKeepSpec, emptyBad]

theorem emptyFilterRead_eq_filter (recs : List Recording) :
    emptyFilterRead recs = recs.filter emptyKeepSpec := by
  induction recs with
  | nil => rfl
  | cons r rs ih =>
    by_cases h : emptyBad r = true <;>
      simp [emptyFilterRead, List.filter_cons, emptyKeepSpec_eq_not_bad, h, ih]

theorem consecAux_eq_spec (l : List Recording) :
    ∀ last, consecAux last l =
      ((last :: l.map (fun r => some r.mbid)).zip l).filterMap
        (fun p => if some p.2.mbid = p.1 then none else some p.2) := by
  induction l with
  | nil => intro last; rfl
  | cons r rs ih =>
    intro last
    by_cases h : some r.mbid = last
    · subst h
      simp [consecAux, List.zip_cons_cons, List.filterMap_cons, ih (some r.mbid)]
    · simp [consecAux, List.zip_cons_cons, List.filterMap_cons, h, ih (some r.mbid)]

/-! ## Helper lemmas about the duplicate filter -/

theorem dupAux_sublist (l : List Recording) :
    ∀ seen, (dupAux seen l).Sublist l := by
  induction l with
  | nil => intro seen; simp [dupAux]
  | cons r rs ih =>
    intro seen
    by_cases h : r.mbid ∈ seen
    · simpa [dupAux, h] using (ih seen).cons r
    · simpa [dupAux, h] using (ih (r.mbid :: seen)).cons₂ r

theorem dupAux_mbid_not_mem_seen (l : List Recording) :
    ∀ seen r, r ∈ dupAux seen l → r.mbid ∉ seen := by
  induction l with
  | nil => intro seen r hr; simp [dupAux] at hr
  | cons x xs ih =>
    intro seen r hr
    by_cases h : x.mbid ∈ seen
    · exact ih seen r (by simpa [dupAux, h] using hr)
    · rw [dupAux, if_neg h] at hr
      rcases List.mem_cons.mp hr with rfl | hr'
      · exact h
      · intro hmem
        exact ih (x.mbid :: seen) r hr' (List.mem_cons_of_mem _ hmem)

theorem dupAux_nodup (l : List Recording) :
    ∀ seen, ((dupAux seen l).map Recording.mbid).Nodup := by
  induction l with
  | nil => intro seen; simp [dupAux]
  | cons x xs ih =>
    intro seen
    by_cases h : x.mbid ∈ seen
    · simpa [dupAux, h] using ih seen
    · rw [dupAux, if_neg h]
      refine List.nodup_cons.mpr ⟨?_, ih (x.mbid :: seen)⟩
      intro hmem
      rcases List.mem_map.mp hmem with ⟨r, hr, hmbid⟩
      exact dupAux_mbid_not_mem_seen xs (x.mbid :: seen) r hr
        (by simp [hmbid])

theorem dupAux_fixed (l : List Recording) :
    ∀ seen, (∀ r ∈ l, r.mbid ∉ seen) → (l.map Recording.mbid).Nodup →
      dupAux seen l = l := by
  induction l with
  | nil => intro seen _ _; rfl
  | cons x xs ih =>
    intro seen hfresh hnodup
    have hx : x.mbid ∉ seen := hfresh x (List.mem_cons_self x xs)
    rw [dupAux, if_neg hx]
    rw [List.map_cons, List.nodup_cons] at hnodup
    congr 1
    refine ih (x.mbid :: seen) ?_ hnodup.2
    intro r hr hmem
    rcases List.mem_cons.mp hmem with heq | hseen
    · exact hnodup.1 (List.mem_map.mpr ⟨r, hr, heq⟩)
    · exact hfresh r (List.mem_cons_of_mem _ hr) hseen

/-! ## Helper lemmas about the artist-credit rank limiter -/

theorem groupOf_insertGroup (g : List GroupEntry) (k k' : Option Nat)
    (v : Nat × Option Int) :
    groupOf (insertGroup g k v) k' =
      if k = k' then groupOf g k' ++ [v] else groupOf g k' := by
  induction g with
  | nil => by_cases h : k = k' <;> simp [insertGroup, groupOf, h]
  | cons e rest ih =>
    obtain ⟨k₀, l₀⟩ := e
    by_cases h0 : k₀ = k
    · subst h0
      by_cases h1 : k₀ = k' <;> simp [insertGroup, groupOf, h1]
    · by_cases h1 : k₀ = k'
      · subst h1
        have h2 : ¬ k = k₀ := fun hh => h0 hh.symm
        simp [insertGroup, groupOf, h0, h2]
      · simp [insertGroup, groupOf, h0, h1, ih]

theorem insertGroup_keys (g : List GroupEntry) (k : Option Nat) (v : Nat × Option Int) :
    (insertGroup g k v).map Prod.fst =
      if k ∈ g.map Prod.fst then g.map Prod.fst else g.map Prod.fst ++ [k] := by
  induction g with
  | nil => simp [insertGroup]
  | cons e rest ih =>
    obtain ⟨k₀, l₀⟩ := e
    by_cases h0 : k₀ = k
    · subst h0; simp [insertGroup]
    · have h2 : ¬ k = k₀ := fun hh => h0 hh.symm
      by_cases hm : k ∈ rest.map Prod.fst <;>
        simp [insertGroup, h0, h2, hm, ih]

theorem insertGroup_keys_nodup (g : List GroupEntry) (k : Option Nat)
    (v : Nat × Option Int) (h : (g.map Prod.fst).Nodup) :
    ((insertGroup g k v).map Prod.fst).Nodup := by
  rw [insertGroup_keys]
  by_cases hm : k ∈ g.map Prod.fst
  · simpa [hm] using h
  · rw [if_neg hm]
    rw [List.nodup_append]
    exact ⟨h, List.nodup_singleton k, by simpa [List.disjoint_singleton] using hm⟩

theorem buildIndex_keys_nodup (recs : List Recording) :
    ∀ acc flag g fl, buildIndex recs acc flag = .ok (g, fl) →
      (acc.map Prod.fst).Nodup → (g.map Prod.fst).Nodup := by
  induction recs with
  | nil =>
    intro acc flag g fl h hacc
    obtain ⟨rfl, rfl⟩ : acc = g ∧ flag = fl := by simpa [buildIndex] using h
    exact hacc
  | cons r rs ih =>
    intro acc flag g fl h hacc
    cases ha : r.artist with
    | none => simp [buildIndex, ha] at h
    | some a =>
      simp only [buildIndex, ha] at h
      exact ih _ _ _ _ h (insertGroup_keys_nodup _ _ _ hacc)

theorem buildIndex_groupOf (recs : List Recording) :
    ∀ acc flag g fl, buildIndex recs acc flag = .ok (g, fl) → ∀ k,
      groupOf g k = groupOf acc k ++ recs.filterMap
        (fun r => if creditOf r = some k then some (r.mbid, r.ranking) else none) := by
  induction recs with
  | nil =>
    intro acc flag g fl h k
    obtain ⟨rfl, rfl⟩ : acc = g ∧ flag = fl := by simpa [buildIndex] using h
    simp
  | cons r rs ih =>
    intro acc flag g fl h k
    cases ha : r.artist with
    | none => simp [buildIndex, ha] at h
    | some a =>
      simp only [buildIndex, ha] at h
      have hc : creditOf r = some a.artist_credit_id := by simp [creditOf, ha]
      rw [ih _ _ _ _ h k, groupOf_insertGroup]
      by_cases hk : a.artist_credit_id = k
      · simp [List.filterMap_cons, hc, hk]
      · simp [List.filterMap_cons, hc, hk]

theorem buildIndex_flag (recs : List Recording) :
    ∀ acc flag g fl, buildIndex recs acc flag = .ok (g, fl) →
      fl = (flag && recs.all (fun r => r.ranking.isSome)) := by
  induction recs with
  | nil =>
    intro acc flag g fl h
    obtain ⟨rfl, rfl⟩ : acc = g ∧ flag = fl := by simpa [buildIndex] using h
    simp
  | cons r rs ih =>
    intro acc flag g fl h
    cases ha : r.artist with
    | none => simp [buildIndex, ha] at h
    | some a =>
      simp only [buildIndex, ha] at h
      rw [ih _ _ _ _ h]
      simp [List.all_cons, Bool.and_assoc]

theorem buildIndex_ok_of_artists (recs : List Recording) :
    ∀ acc flag, (∀ r ∈ recs, r.artist.isSome) →
      ∃ g fl, buildIndex recs acc flag = .ok (g, fl) := by
  induction recs with
  | nil => intro acc flag _; exact ⟨acc, flag, rfl⟩
  | cons r rs ih =>
    intro acc flag hall
    have hr := hall r (List.mem_cons_self r rs)
    cases ha : r.artist with
    | none => rw [ha] at hr; simp at hr
    | some a =>
      obtain ⟨g, fl, hg⟩ := ih
        (insertGroup acc a.artist_credit_id (r.mbid, r.ranking))
        (flag && r.ranking.isSome)
        (fun x hx => hall x (List.mem_cons_of_mem _ hx))
      exact ⟨g, fl, by simp [buildIndex, ha, hg]⟩

theorem limiterRead_ok_iff (shuffle : List (Nat × Option Int) → List (Nat × Option Int))
    (count : Int) (elr : Bool) (recs out : List Recording) :
    limiterRead shuffle count elr recs = .ok out ↔
      ∃ g fl, buildIndex recs [] true = .ok (g, fl) ∧
        out = limiterPost shuffle count elr recs g fl := by
  rw [limiterRead]
  cases hb : buildIndex recs [] true with
  | error e => simp [hb]
  | ok gfl =>
    obtain ⟨g, fl⟩ := gfl
    constructor
    · intro h
      exact ⟨g, fl, rfl, (Except.ok.inj h).symm⟩
    · rintro ⟨g', fl', hg', rfl⟩
      obtain ⟨rfl, rfl⟩ : g = g' ∧ fl = fl' := by simpa using hg'
      rfl

theorem filterMap_credit_length (recs : List Recording) (k : Option Nat) :
    (recs.filterMap
      (fun r => if creditOf r = some k then some (r.mbid, r.ranking) else none)).length =
      recs.countP (fun r => decide (creditOf r = some k)) := by
  induction recs with
  | nil => rfl
  | cons r rs ih =>
    by_cases h : creditOf r = some k <;>
      simp [List.filterMap_cons, List.countP_cons, h, ih]

theorem groupOf_mem_of_ne_nil (g : List GroupEntry) (k : Option Nat)
    (h : groupOf g k ≠ []) : (k, groupOf g k) ∈ g := by
  induction g with
  | nil => simp [groupOf] at h
  | cons e rest ih =>
    obtain ⟨k₀, l₀⟩ := e
    by_cases h0 : k₀ = k
    · subst h0; simp [groupOf]
    · have hg : groupOf ((k₀, l₀) :: rest) k = groupOf rest k := by
        simp [groupOf, h0]
      rw [hg] at h ⊢
      exact List.mem_cons_of_mem _ (ih h)

theorem groupOf_of_mem (g : List GroupEntry) (hnd : (g.map Prod.fst).Nodup) :
    ∀ k l, (k, l) ∈ g → groupOf g k = l := by
  induction g with
  | nil => intro k l h; simp at h
  | cons e rest ih =>
    intro k l h
    obtain ⟨k₀, l₀⟩ := e
    rw [List.map_cons, List.nodup_cons] at hnd
    rcases List.mem_cons.mp h with heq | hmem
    · cases heq; simp [groupOf]
    · by_cases h0 : k₀ = k
      · subst h0
        exact absurd (List.mem_map.mpr ⟨(k₀, l), hmem, rfl⟩) hnd.1
      · rw [groupOf, if_neg h0]
        exact ih hnd.2 k l hmem

theorem orderFn_perm (shuffle : List (Nat × Option Int) → List (Nat × Option Int))
    (hperm : ∀ l, List.Perm (shuffle l) l) (ar elr : Bool)
    (l : List (Nat × Option Int)) :
    List.Perm (if ar then sortGroup elr l else shuffle l) l := by
  cases ar with
  | false => simpa using hperm l
  | true =>
    cases elr <;> simp [sortGroup] <;> exact List.perm_insertionSort _ l

theorem pyTake_sublist (l : List (Nat × Option Int)) (c : Int) :
    (pyTake l c).Sublist l := by
  rw [pyTake]; split <;> exact List.take_sublist _ _

theorem pyTake_length_le (l : List (Nat × Option Int)) (c : Int) (hc : 0 ≤ c) :
    (pyTake l c).length ≤ c.toNat := by
  rw [pyTake, if_pos hc]
  simp [List.length_take]

theorem pyTake_of_lt (l : List (Nat × Option Int)) (c : Int)
    (h : (l.length : Int) < c) : pyTake l c = l := by
  have hc : 0 ≤ c := le_trans (Int.ofNat_nonneg _) (le_of_lt h)
  rw [pyTake, if_pos hc]
  apply List.take_of_length_le
  omega

theorem pyTake_zero (l : List (Nat × Option Int)) : pyTake l 0 = [] := by
  simp [pyTake]

theorem passRecs_zero (shuffle : List (Nat × Option Int) → List (Nat × Option Int))
    (elr ar : Bool) (g : List GroupEntry) :
    passRecs (processGroups shuffle 0 elr ar g) = [] := by
  induction g with
  | nil => rfl
  | cons e rest ih =>
    simp only [processGroups, passRecs, List.map_cons, List.flatMap_cons, pyTake_zero,
      List.map_nil, List.nil_append]
    simpa only [processGroups, passRecs] using ih

/-! ## Claim theorems -/

/-- C1: the artist-credit rank limiter is documented to raise the typed
structural failure `PipelineError` when a recording's artist or credit id is
absent, but the code does not: a recording whose artist is present with a
`None` credit id is silently grouped under the `None` key and returned
normally, and a recording with no artist fails with an untyped
`AttributeError` (the `except KeyError` clause never matches), not with
`PipelineError`. -/
theorem C1_limiter_missing_credit_behavior :
    limiterRead id 2 true [recMissingCreditId] = .ok [recMissingCreditId] ∧
    limiterRead id 2 true [recMissingArtist] = .error .attributeError :=
  ⟨rfl, rfl⟩

/-- C2 (counterexample): with `count = 1` and two input recordings sharing
one mbid under one artist credit, the survivor list is the single mbid, yet
both input recordings match it, so the output holds two recordings of that
credit — more than the configured `count`. -/
theorem C2_duplicate_mbid_counterexample :
    limiterRead id 1 true [mkRec 1 (some 5) (some 1), mkRec 1 (some 5) (some 2)] =
      .ok [mkRec 1 (some 5) (some 1), mkRec 1 (some 5) (some 2)] ∧
    ([mkRec 1 (some 5) (some 1), mkRec 1 (some 5) (some 2)].countP
      (fun r => decide (creditOf r = some (some 5))) = 2) ∧
    decide ((2 : Int) ≤ 1) = false :=
  ⟨rfl, rfl, by decide⟩

/-- C2 (amended): provided the input recordings' mbids are pairwise distinct
and `count ≥ 0`, every artist-credit id has at most `count` recordings in the
limiter's output, for any shuffle that permutes its input. -/
theorem C2_cap_invariant
    (shuffle : List (Nat × Option Int) → List (Nat × Option Int))
    (count : Int) (elr : Bool) (recs out : List Recording)
    (hperm : ∀ l, List.Perm (shuffle l) l) (hcount : 0 ≤ count)
    (hnodup : (recs.map Recording.mbid).Nodup)
    (hok : limiterRead shuffle count elr recs = .ok out) :
    ∀ k : Option Nat,
      ((out.countP (fun r => decide (creditOf r = some k)) : Nat) : Int) ≤ count := by
  intro k
  obtain ⟨g, fl, hb, rfl⟩ := (limiterRead_ok_iff _ _ _ _ _).mp hok
  have hkeys : (g.map Prod.fst).Nodup :=
    buildIndex_keys_nodup recs [] true g fl hb (by simp)
  have hgrp : ∀ k' : Option Nat, groupOf g k' = recs.filterMap
      (fun x => if creditOf x = some k' then some (x.mbid, x.ranking) else none) :=
    fun k' => by simpa [groupOf] using buildIndex_groupOf recs [] true g fl hb k'
  have key : ∀ r ∈ recs, creditOf r = some k →
      r.mbid ∈ passRecs (processGroups shuffle count elr fl g) →
      r.mbid ∈ (pyTake (if fl then sortGroup elr (groupOf g k)
        else shuffle (groupOf g k)) count).map Prod.fst := by
    intro r hrrecs hcred hpassmem
    rw [passRecs] at hpassmem
    obtain ⟨e, heP, hme⟩ := List.mem_flatMap.mp hpassmem
    simp only [processGroups] at heP
    obtain ⟨e0, he0, rfl⟩ := List.mem_map.mp heP
    have he02 : groupOf g e0.1 = e0.2 :=
      groupOf_of_mem g hkeys e0.1 e0.2 (by simpa using he0)
    have h1 : r.mbid ∈ ((if fl then sortGroup elr e0.2 else shuffle e0.2)).map Prod.fst :=
      ((pyTake_sublist _ _).map Prod.fst).subset (by simpa using hme)
    have h2 : r.mbid ∈ e0.2.map Prod.fst :=
      ((orderFn_perm shuffle hperm fl elr e0.2).map Prod.fst).mem_iff.mp h1
    rw [← he02, hgrp e0.1] at h2
    obtain ⟨pr, hpr, hprfst⟩ := List.mem_map.mp h2
    obtain ⟨r', hr', hfr'⟩ := List.mem_filterMap.mp hpr
    by_cases hcr' : creditOf r' = some e0.1
    · rw [if_pos hcr'] at hfr'
      cases hfr'
      have heq : r' = r :=
        List.inj_on_of_nodup_map hnodup hr' hrrecs (by simpa using hprfst)
      subst heq
      have hk : e0.1 = k := Option.some.inj (hcr'.symm.trans hcred)
      rw [hk] at he02
      rw [he02]
      simpa using hme
    · rw [if_neg hcr'] at hfr'
      exact absurd hfr' (by simp)
  have hsub : ((recs.filter (fun a => decide (creditOf a = some k) &&
      decide (a.mbid ∈ passRecs (processGroups shuffle count elr fl g)))).map
        Recording.mbid) ⊆
      (pyTake (if fl then sortGroup elr (groupOf g k)
        else shuffle (groupOf g k)) count).map Prod.fst := by
    intro m hm
    obtain ⟨r, hrL, rfl⟩ := List.mem_map.mp hm
    obtain ⟨hrrecs, hcond⟩ := List.mem_filter.mp hrL
    rw [Bool.and_eq_true, decide_eq_true_eq, decide_eq_true_eq] at hcond
    exact key r hrrecs hcond.1 hcond.2
  have hnd : ((recs.filter (fun a => decide (creditOf a = some k) &&
      decide (a.mbid ∈ passRecs (processGroups shuffle count elr fl g)))).map
        Recording.mbid).Nodup :=
    ((List.filter_sublist recs).map Recording.mbid).nodup hnodup
  have hlen : (recs.filter (fun a => decide (creditOf a = some k) &&
      decide (a.mbid ∈ passRecs (processGroups shuffle count elr fl g)))).length ≤
      count.toNat := by
    have h1 := (List.subperm_of_subset hnd hsub).length_le
    have h2 : ((pyTake (if fl then sortGroup elr (groupOf g k)
        else shuffle (groupOf g k)) count).map Prod.fst).length ≤ count.toNat := by
      simpa using pyTake_length_le _ count hcount
    simpa using le_trans h1 h2
  rw [limiterPost, List.countP_eq_length_filter, List.filter_filter]
  calc ((recs.filter (fun a => decide (creditOf a = some k) &&
        decide (a.mbid ∈ passRecs (processGroups shuffle count elr fl g)))).length : Int)
      ≤ (count.toNat : Int) := by exact_mod_cast hlen
    _ = count := Int.toNat_of_nonneg hcount

/-- C2 (witness): a concrete run with distinct mbids, `count = 1`, two
recordings under one credit: the output holds one recording of credit 5. -/
theorem C2_cap_invariant_witness :
    (0 : Int) ≤ 1 ∧
    (([mkRec 1 (some 5) (some 10), mkRec 2 (some 5) (some 3)].map Recording.mbid).Nodup) ∧
    limiterRead id 1 true [mkRec 1 (some 5) (some 10), mkRec 2 (some 5) (some 3)] =
      .ok [mkRec 1 (some 5) (some 10)] ∧
    ((([mkRec 1 (some 5) (some 10)] : List Recording).countP
      (fun r => decide (creditOf r = some (some 5))) : Nat) : Int) ≤ 1 := by
  refine ⟨by decide, by decide, rfl, ?_⟩
  exact C2_cap_invariant id 1 true
    [mkRec 1 (some 5) (some 10), mkRec 2 (some 5) (some 3)]
    [mkRec 1 (some 5) (some 10)]
    (fun l => List.Perm.refl l) (by decide) (by decide) rfl (some 5)

/-- C3: with `count = 1` and one artist credit holding distinct rankings
10 > 5 > 1, `exclude_lower_ranked = true` keeps exactly the ranking-10
recording and `exclude_lower_ranked = false` exactly the ranking-1 one; the
sorting applied in the all-rankings branch is descending (`rankDesc`) when
`exclude_lower_ranked` and ascending (`rankAsc`) otherwise; every successful
output is a subsequence of the input (original input order); and when every
recording has a ranking the result does not depend on the shuffle at all. -/
theorem C3_rank_direction :
    limiterRead id 1 true
      [mkRec 1 (some 7) (some 10), mkRec 2 (some 7) (some 5), mkRec 3 (some 7) (some 1)] =
      .ok [mkRec 1 (some 7) (some 10)] ∧
    limiterRead id 1 false
      [mkRec 1 (some 7) (some 10), mkRec 2 (some 7) (some 5), mkRec 3 (some 7) (some 1)] =
      .ok [mkRec 3 (some 7) (some 1)] ∧
    (∀ l : List (Nat × Option Int),
      List.Sorted rankDesc (sortGroup true l) ∧ List.Sorted rankAsc (sortGroup false l)) ∧
    (∀ (shuffle : List (Nat × Option Int) → List (Nat × Option Int))
      (count : Int) (elr : Bool) (recs out : List Recording),
      limiterRead shuffle count elr recs = .ok out → out.Sublist recs) ∧
    (∀ (shuffle shuffle' : List (Nat × Option Int) → List (Nat × Option Int))
      (count : Int) (elr : Bool) (recs : List Recording),
      recs.all (fun r => r.ranking.isSome) = true →
      limiterRead shuffle count elr recs = limiterRead shuffle' count elr recs) := by
  refine ⟨rfl, rfl, ?_, ?_, ?_⟩
  · intro l
    constructor
    · simpa [sortGroup] using List.sorted_insertionSort rankDesc l
    · simpa [sortGroup] using List.sorted_insertionSort rankAsc l
  · intro shuffle count elr recs out hok
    obtain ⟨g, fl, hb, rfl⟩ := (limiterRead_ok_iff _ _ _ _ _).mp hok
    rw [limiterPost]
    exact List.filter_sublist recs
  · intro shuffle shuffle' count elr recs hall
    rw [limiterRead, limiterRead]
    cases hb : buildIndex recs [] true with
    | error e => rfl
    | ok gfl =>
      obtain ⟨g, fl⟩ := gfl
      have hfl : fl = true := by
        have h := buildIndex_flag recs [] true g fl hb
        rw [hall] at h
        simpa using h
      subst hfl
      have hpg : processGroups shuffle count elr true g =
          processGroups shuffle' count elr true g := by
        simp [processGroups]
      show Except.ok (limiterPost shuffle count elr recs g true) =
        Except.ok (limiterPost shuffle' count elr recs g true)
      rw [limiterPost, limiterPost]
      simp only [hpg]

/-- C3 (witness): the subsequence conjunct applied to a concrete run. -/
theorem C3_rank_direction_witness :
    ([mkRec 1 (some 7) (some 10)] : List Recording).Sublist
      [mkRec 1 (some 7) (some 10), mkRec 2 (some 7) (some 5), mkRec 3 (some 7) (some 1)] :=
  C3_rank_direction.2.2.2.1 id 1 true _ _ rfl

/-- C4 (counterexample): `count = -1` does not yield an empty output —
Python's `l[:-1]` keeps all but the last element, so a two-recording group
contributes one recording. -/
theorem C4_negative_count_counterexample :
    limiterRead id (-1) true [mkRec 1 (some 5) (some 2), mkRec 2 (some 5) (some 1)] =
      .ok [mkRec 1 (some 5) (some 2)] ∧
    (-1 : Int) ≤ 0 :=
  ⟨rfl, by decide⟩

/-- C4 (amended): with `count = 0` (rather than every `count ≤ 0`) and all
recordings attributable, the limiter's output is empty; and any group with
fewer members than a (necessarily positive) `count` passes through whole:
each of its recordings appears in the output. -/
theorem C4_zero_count_and_small_groups :
    (∀ (shuffle : List (Nat × Option Int) → List (Nat × Option Int)) (elr : Bool)
      (recs : List Recording), (∀ r ∈ recs, r.artist.isSome) →
      limiterRead shuffle 0 elr recs = .ok []) ∧
    (∀ (shuffle : List (Nat × Option Int) → List (Nat × Option Int)) (count : Int)
      (elr : Bool) (recs out : List Recording) (k : Option Nat),
      (∀ l, List.Perm (shuffle l) l) →
      limiterRead shuffle count elr recs = .ok out →
      ((recs.countP (fun r => decide (creditOf r = some k)) : Nat) : Int) < count →
      ∀ r ∈ recs, creditOf r = some k → r ∈ out) := by
  constructor
  · intro shuffle elr recs hall
    obtain ⟨g, fl, hb⟩ := buildIndex_ok_of_artists recs [] true hall
    rw [limiterRead_ok_iff]
    refine ⟨g, fl, hb, ?_⟩
    rw [limiterPost, passRecs_zero]
    simp
  · intro shuffle count elr recs out k hperm hok hsize r hr hcred
    obtain ⟨g, fl, hb, rfl⟩ := (limiterRead_ok_iff _ _ _ _ _).mp hok
    rw [limiterPost]
    refine List.mem_filter.mpr ⟨hr, ?_⟩
    rw [decide_eq_true_eq]
    have hgrp : groupOf g k = recs.filterMap
        (fun x => if creditOf x = some k then some (x.mbid, x.ranking) else none) := by
      simpa [groupOf] using buildIndex_groupOf recs [] true g fl hb k
    have hpair : (r.mbid, r.ranking) ∈ groupOf g k := by
      rw [hgrp]
      exact List.mem_filterMap.mpr ⟨r, hr, by rw [if_pos hcred]⟩
    have hmemg : (k, groupOf g k) ∈ g :=
      groupOf_mem_of_ne_nil g k (List.ne_nil_of_mem hpair)
    have hmemP : (k, pyTake (if fl then sortGroup elr (groupOf g k)
        else shuffle (groupOf g k)) count) ∈ processGroups shuffle count elr fl g := by
      simp only [processGroups]
      exact List.mem_map.mpr ⟨(k, groupOf g k), hmemg, rfl⟩
    have horder := orderFn_perm shuffle hperm fl elr (groupOf g k)
    have hlen : (((if fl then sortGroup elr (groupOf g k)
        else shuffle (groupOf g k)).length : Nat) : Int) < count := by
      rw [horder.length_eq, hgrp, filterMap_credit_length]
      exact hsize
    have hfull : pyTake (if fl then sortGroup elr (groupOf g k)
        else shuffle (groupOf g k)) count =
        (if fl then sortGroup elr (groupOf g k) else shuffle (groupOf g k)) :=
      pyTake_of_lt _ _ hlen
    rw [passRecs]
    apply List.mem_flatMap.mpr
    refine ⟨(k, pyTake (if fl then sortGroup elr (groupOf g k)
      else shuffle (groupOf g k)) count), hmemP, ?_⟩
    rw [hfull]
    exact List.mem_map.mpr ⟨(r.mbid, r.ranking), horder.mem_iff.mpr hpair, rfl⟩

/-- C4 (witness): a concrete zero-count run yielding the empty output, and a
concrete small group (one member, `count = 5`) passing through whole. -/
theorem C4_zero_count_and_small_groups_witness :
    (mkRec 1 (some 5) (some 1)).artist.isSome = true ∧
    limiterRead id 0 true [mkRec 1 (some 5) (some 1)] = .ok [] ∧
    mkRec 1 (some 5) (some 1) ∈ [mkRec 1 (some 5) (some 1)] := by
  refine ⟨by decide, C4_zero_count_and_small_groups.1 id true _ (by decide), ?_⟩
  exact C4_zero_count_and_small_groups.2 id 5 true
    [mkRec 1 (some 5) (some 1)] [mkRec 1 (some 5) (some 1)] (some 5)
    (fun l => List.Perm.refl l) rfl (by decide)
    (mkRec 1 (some 5) (some 1)) (List.mem_cons_self _ _) (by decide)

/-- C5 (counterexample): a recording whose artist-credit id is present but
equal to `0` is skipped by the inclusion/exclusion filter (Python truthiness
treats `0` like `None`), so with `include = false` and an empty configured
set — under which the claim says every recording with a present credit id
not in the set passes — the output is empty. -/
theorem C5_zero_credit_counterexample :
    acFilterRead [] false [mkRec 1 (some 0) (some 1)] = [] ∧
    (mkRec 1 (some 0) (some 1)).artist =
      some { artist_credit_id := some 0, name := some "a" } ∧
    decide ((0 : Nat) ∈ ([] : List Nat)) = false :=
  ⟨rfl, rfl, by decide⟩

/-- C5 (amended): the inclusion/exclusion filter drops every recording whose
artist is absent or whose credit id is absent **or zero** (Python falsy), and
keeps any other recording exactly when (`include` and its credit id is
configured) or (not `include` and it is not); the output is a subsequence of
the input, so input order is preserved. -/
theorem C5_inclusion_exclusion :
    (∀ (ids : List Nat) (inc : Bool) (recs : List Recording),
      acFilterRead ids inc recs = recs.filter (acKeepSpec ids inc)) ∧
    (∀ (ids : List Nat) (inc : Bool) (recs : List Recording),
      (acFilterRead ids inc recs).Sublist recs) := by
  refine ⟨acFilterRead_eq_filter, ?_⟩
  intro ids inc recs
  rw [acFilterRead_eq_filter]
  exact List.filter_sublist recs

/-- C6 (counterexample): a recording whose year is present but equal to `0`
is excluded even when `start_year ≤ 0 ≤ end_year` and `inverse = false`,
where the claim says a present in-range year is kept. -/
theorem C6_zero_year_counterexample :
    yearRangeRead (-1) 1 false [mkYearRec 1 (some 0)] = [] ∧
    (mkYearRec 1 (some 0)).year = some 0 ∧
    (-1 : Int) ≤ 0 ∧ (0 : Int) ≤ 1 :=
  ⟨rfl, rfl, by decide, by decide⟩

/-- C6 (amended): the year-range filter excludes recordings whose year is
absent **or zero** (Python falsy); any other recording with year `y` is kept
exactly when `start_year ≤ y ≤ end_year` (inclusive) if `inverse` is false,
and exactly when `y < start_year ∨ y > end_year` if `inverse` is true; input
order is preserved.  The spec's concrete 1995/None/2005 examples hold. -/
theorem C6_year_range :
    (∀ (s e : Int) (inv : Bool) (recs : List Recording),
      yearRangeRead s e inv recs = recs.filter (yearKeepSpec s e inv)) ∧
    (∀ (s e : Int) (inv : Bool) (recs : List Recording),
      (yearRangeRead s e inv recs).Sublist recs) ∧
    yearRangeRead 2000 2010 false
      [mkYearRec 1 (some 1995), mkYearRec 2 none, mkYearRec 3 (some 2005)] =
      [mkYearRec 3 (some 2005)] ∧
    yearRangeRead 2000 2010 true
      [mkYearRec 1 (some 1995), mkYearRec 2 none, mkYearRec 3 (some 2005)] =
      [mkYearRec 1 (some 1995)] := by
  refine ⟨yearRangeRead_eq_filter, ?_, rfl, rfl⟩
  intro s e inv recs
  rw [yearRangeRead_eq_filter]
  exact List.filter_sublist recs

/-- C7: the consecutive-recording filter removes a recording exactly when its
mbid equals the mbid of the immediately preceding **input** element (the
first element has no predecessor and is always kept), and on the spec's
example `[A, A, A, B, B, A, C]` it produces `[A, B, A, C]`. -/
theorem C7_consecutive :
    (∀ l : List Recording, consecFilterRead l = consecSpec l) ∧
    consecFilterRead
      [mkRec 1 none none, mkRec 1 none none, mkRec 1 none none,
       mkRec 2 none none, mkRec 2 none none, mkRec 1 none none,
       mkRec 3 none none] =
      [mkRec 1 none none, mkRec 2 none none, mkRec 1 none none,
       mkRec 3 none none] := by
  refine ⟨?_, rfl⟩
  intro l
  exact consecAux_eq_spec l none

/-- C8: the duplicate-recording filter is idempotent; moreover its output has
pairwise-distinct mbids and is a subsequence of the input (each kept
recording is the first occurrence of its mbid, in input order). -/
theorem C8_duplicate_idempotent :
    (∀ recs : List Recording, dupFilterRead (dupFilterRead recs) = dupFilterRead recs) ∧
    (∀ recs : List Recording, ((dupFilterRead recs).map Recording.mbid).Nodup) ∧
    (∀ recs : List Recording, (dupFilterRead recs).Sublist recs) := by
  refine ⟨?_, fun recs => dupAux_nodup recs [], fun recs => dupAux_sublist recs []⟩
  intro recs
  exact dupAux_fixed (dupAux [] recs) [] (fun r _ => by simp) (dupAux_nodup recs [])

/-- C9: the empty-metadata filter keeps exactly the recordings whose name is
present and whose artist, when present, also has a present name; a recording
without a name is dropped regardless of its artist, a named recording whose
present artist is nameless is dropped, a named recording with no artist is
kept, and input order is preserved. -/
theorem C9_empty_metadata :
    (∀ recs : List Recording, emptyFilterRead recs = recs.filter emptyKeepSpec) ∧
    (∀ recs : List Recording, (emptyFilterRead recs).Sublist recs) ∧
    emptyFilterRead [recNoName, recArtistNoName, recNamedNoArtist] =
      [recNamedNoArtist] := by
  refine ⟨emptyFilterRead_eq_filter, ?_, rfl⟩
  intro recs
  rw [emptyFilterRead_eq_filter]
  exact List.filter_sublist recs

/-- C10: no recording whose year is `0` ever survives the year-range filter,
whatever the bounds (even when they enclose `0`) and in both `inverse`
modes: the Python presence test `not r.year` treats a zero year like an
absent one. -/
theorem C10_zero_year_excluded :
    ∀ (s e : Int) (inv : Bool) (recs : List Recording),
      (yearRangeRead s e inv recs).all (fun r => decide (r.year ≠ some 0)) = true := by
  intro s e inv recs
  rw [yearRangeRead_eq_filter, List.all_eq_true]
  intro r hr
  have hk : yearKeepSpec s e inv r = true := (List.mem_filter.mp hr).2
  cases hy : r.year with
  | none => simp [hy]
  | some y =>
    rw [yearKeepSpec, hy] at hk
    have : y ≠ 0 := (of_decide_eq_true hk).1
    simp [hy, this]

end Troi
